import Mathlib

/-!
Verification of the local discovery / masking / aggregation core of
`lora_wizard.py` against its natural-language specification.

The Python functions are shallowly embedded as executable Lean
definitions: strings are `String` or `List Char`, dictionaries are
association lists, the filesystem is an explicit tree, and fallible
operations are parameterized by their observed outcomes.
-/

/-! ## String primitives

Python string operations are modeled on the character list of the
string (`String.toList`), which keeps every definition evaluable by the
kernel.  `lower()` is modeled for ASCII letters, the only case exercised
by the heuristics (`lora`, `lycoris`, `models`, `epoch` are ASCII). -/

/-- Python `s.startswith(p)`. -/
def strStartsWith (s p : String) : Bool := p.toList.isPrefixOf s.toList

/-- Python `s.endswith(p)`. -/
def strEndsWith (s p : String) : Bool := p.toList.isSuffixOf s.toList

/-- Python `s.lower()` on the character list. -/
def lowerChars (l : List Char) : List Char := l.map Char.toLower

/-! ## Masking (`mask_sensitive_data`, src/lora_wizard.py lines 53-69) -/

/-- Boolean substring test on character lists: `containsSeq pat s` is true
iff `pat` occurs contiguously inside `s` (Python `pat in s`). -/
def containsSeq (pat : List Char) : List Char → Bool
  | [] => pat.isEmpty
  | c :: rest => pat.isPrefixOf (c :: rest) || containsSeq pat rest

/-- Worker for `pyReplace`.  The counter `skip` is positive while we are
still consuming characters of an already-replaced match (they are dropped
without being copied).  Structural recursion on the subject string keeps
the definition kernel-reducible. -/
def pyRepAux : List Char → List Char → List Char → Nat → List Char
  | [], _, _, _ => []
  | _ :: rest, pat, rep, k + 1 => pyRepAux rest pat rep k
  | c :: rest, pat, rep, 0 =>
    if pat ≠ [] ∧ pat.isPrefixOf (c :: rest) then
      rep ++ pyRepAux rest pat rep (pat.length - 1)
    else
      c :: pyRepAux rest pat rep 0

/-- Python `text.replace(pat, rep)` for a nonempty pattern: every
non-overlapping occurrence of `pat`, scanned left to right, is replaced
by `rep`.  (`mask_sensitive_data` only calls it with `pat.length ≥ 8`.) -/
def pyReplace (s pat rep : List Char) : List Char := pyRepAux s pat rep 0

/-- The replacement string built by `mask_sensitive_data`: the first 4
characters of the token, three dots, and its last 4 characters
(the Python format string interpolating token[:4] and token[-4:]). -/
def maskedToken (tk : List Char) : List Char :=
  tk.take 4 ++ ('.' :: '.' :: '.' :: tk.drop (tk.length - 4))

/-- Embedding of `mask_sensitive_data(text, token)`.  The token is an
`Option` so that Python `None` is representable; `not token` (None or
empty string) and `len(token) < 8` both land in the first branch because
the empty list has length `0 < 8`. -/
def mask_sensitive_data (text : List Char) (token : Option (List Char)) : List Char :=
  match token with
  | none => text
  | some tk =>
    if tk.length < 8 then text
    else pyReplace text tk (maskedToken tk)

/-! ## Epoch-range policy (src/lora_wizard.py lines 1341-1361) -/

/-- Default epoch range applied when the user supplies neither bound
(`from_input == "" and to_input == ""`). -/
def defaultEpochRange (minEpoch maxEpoch : Nat) : Nat × Nat :=
  if maxEpoch < 10 then (minEpoch, maxEpoch)
  else (if minEpoch < 10 then 10 else minEpoch,
        if maxEpoch > 200 then 200 else maxEpoch)

/-- User-supplied bounds: inverted bounds are swapped (with a warning in
the CLI), never rejected. -/
def swapIfInverted (epochFrom epochTo : Nat) : Nat × Nat :=
  if epochFrom > epochTo then (epochTo, epochFrom) else (epochFrom, epochTo)

/-! ## Epoch folder sort key (src/lora_wizard.py lines 1304-1305)

The sort key of an epoch folder name is the integer value of the first
regex match of one-or-more digits, or the infinite float when the name
has no digit. -/

/-- First maximal run of decimal digits in a name (the first match of
the one-or-more-digits regex), or `none` when the name contains no
digit. -/
def firstDigitRun : List Char → Option (List Char)
  | [] => none
  | c :: rest =>
    if c.isDigit then some (c :: rest.takeWhile Char.isDigit)
    else firstDigitRun rest

/-- Numeric value of a digit run (Python `int` of the matched string). -/
def digitsVal (l : List Char) : Nat :=
  l.foldl (fun acc c => acc * 10 + (c.toNat - '0'.toNat)) 0

/-- The sort key of an epoch folder name: the parsed number, or `none`
standing for the infinite float when the name has no digits. -/
def epochSortKey (name : String) : Option Nat :=
  (firstDigitRun name.toList).map digitsVal

/-- Strict order on sort keys, with `none` as plus infinity. -/
def epochKeyLt : Option Nat → Option Nat → Bool
  | some m, some n => m < n
  | some _, none => true
  | none, _ => false

/-! ## Config aggregator (`collect_training_info`, src/lora_wizard.py lines 446-560)

A parsed configuration file is abstracted as a finite map
`String → Option String` (the dict produced by `parse_toml_simple`); the
accumulated record is an association list.  The `source_files`
bookkeeping entry of the Python dict is kept separately by the CLI and
never interacts with the allow-listed keys, so it is not modeled. -/

/-- The fixed allow-list `interesting_keys`. -/
def interesting_keys : List String :=
  ["network_dim", "network_alpha", "rank", "alpha",
   "network_module", "network_type",
   "learning_rate", "lr", "unet_lr", "text_encoder_lr",
   "max_train_epochs", "max_train_steps", "epochs",
   "train_batch_size", "batch_size",
   "resolution", "width", "height",
   "optimizer_type", "optimizer",
   "lr_scheduler", "scheduler",
   "seed",
   "pretrained_model_name_or_path", "model_path", "base_model",
   "output_dir", "output_name",
   "train_data_dir", "dataset_config",
   "caption_extension",
   "mixed_precision", "gradient_checkpointing",
   "save_every_n_epochs", "save_model_as"]

/-- Dictionary lookup on the association-list model of the
`training_info` dict. -/
def lookupKV : List (String × String) → String → Option String
  | [], _ => none
  | (a, v) :: rest, k => if a = k then some v else lookupKV rest k

/-- One iteration of the outer loop of `collect_training_info`: for each
allow-listed key, copy the parsed value into the record only when the key
is present in the file and still absent from the record
(`if key in parsed and key not in training_info`). -/
def addParsedFile (info : List (String × String)) (parsed : String → Option String) :
    List (String × String) :=
  interesting_keys.foldl
    (fun acc k =>
      match parsed k with
      | some v => if (lookupKV acc k).isNone then (k, v) :: acc else acc
      | none => acc)
    info

/-- Embedding of the aggregation loop of `collect_training_info` over the
discovered files, in discovery order. -/
def collect_training_info (files : List (String → Option String)) :
    List (String × String) :=
  files.foldl addParsedFile []

/-! ## Filesystem model

A directory is a node carrying its entry name, whether `os.listdir`
succeeds on it (`readable`), its subdirectories and its plain-file
names.  An unreadable directory is one whose listing raises: the Python
code swallows the exception and treats the directory as empty. -/

inductive FSTree : Type where
  | node (name : String) (readable : Bool) (subdirs : List FSTree) (files : List String)

def FSTree.nameOf : FSTree → String
  | .node n _ _ _ => n

def FSTree.readableOf : FSTree → Bool
  | .node _ r _ _ => r

def FSTree.subdirsOf : FSTree → List FSTree
  | .node _ _ s _ => s

def FSTree.filesOf : FSTree → List String
  | .node _ _ _ f => f

/-! ## Run locator (`scan_for_runs`, src/lora_wizard.py lines 1228-1255) -/

/-- Names `os.listdir` yields inside an epoch folder: both subdirectory
and file entries (the Python code applies no `isfile` check before
testing `f.endswith(".safetensors")`). -/
def listdirNames (t : FSTree) : List String :=
  t.subdirsOf.map FSTree.nameOf ++ t.filesOf

/-- The per-directory test of `scan_for_runs`: some immediate child
subdirectory is named `epoch*` and (when its listing succeeds) contains
some entry ending in `.safetensors`. -/
def hasEpochRunChild (subs : List FSTree) : Bool :=
  subs.any (fun c =>
    strStartsWith c.nameOf "epoch" &&
    c.readableOf &&
    (listdirNames c).any (fun f => strEndsWith f ".safetensors"))

mutual

/-- Embedding of `scan_for_runs(root, depth, max_depth=6)`: paths of run
parents, as lists of directory names relative to the scanned root.  The
depth guard comes first (as in the source), then the `os.listdir`
try/except (an unreadable directory yields nothing). -/
def scanDir : FSTree → List String → Nat → List (List String)
  | FSTree.node _ rd subs _, path, depth =>
    if depth > 6 then []
    else if rd then
      (if hasEpochRunChild subs then [path] else []) ++ scanChildren subs path depth
    else []

/-- Recursion of `scan_for_runs` into the subdirectories, in listing order. -/
def scanChildren : List FSTree → List String → Nat → List (List String)
  | [], _, _ => []
  | c :: cs, path, depth =>
    scanDir c (path ++ [c.nameOf]) (depth + 1) ++ scanChildren cs path depth

end

/-- Run parents of a whole tree: `scan_for_runs(root, depth=0, max_depth=6)`. -/
def scanForRuns (t : FSTree) : List (List String) := scanDir t [] 0

/-- Spec-side location predicate: directory `u` sits at relative path `p`
below `t`, every directory strictly above `u` on that path being
readable (otherwise the scan never lists it). -/
inductive DirIn : FSTree → List String → FSTree → Prop where
  | here (t : FSTree) : DirIn t [] t
  | child (t c u : FSTree) (p : List String) :
      t.readableOf = true → c ∈ t.subdirsOf → DirIn c p u →
      DirIn t (c.nameOf :: p) u

/-- Modelled from the spec: the run-directory test as the specification
words it, requiring an epoch child containing at least one FILE (not an
arbitrary directory entry) with the checkpoint suffix. -/
def hasEpochRunChildSpec (subs : List FSTree) : Bool :=
  subs.any (fun c =>
    strStartsWith c.nameOf "epoch" &&
    c.readableOf &&
    c.filesOf.any (fun f => strEndsWith f ".safetensors"))

/-! ## Destination resolver (`resolve_lora_target_dir`, src/lora_wizard.py lines 255-367) -/

inductive ResolveStatus : Type where
  | found_existing
  | created_in_models
  | created_fallback
  | error
  deriving DecidableEq

/-- `is_lora_like(name)`: the lowered name contains `lora` or `lycoris`. -/
def is_lora_like (name : String) : Bool :=
  let low := lowerChars name.toList
  containsSeq "lora".toList low || containsSeq "lycoris".toList low

/-- Python `s.split(sep)` for a one-character separator: every separator
occurrence splits, empty fields are kept. -/
def splitOnChar (sep : Char) (l : List Char) : List (List Char) :=
  l.foldr
    (fun c acc =>
      match acc with
      | [] => [[c]]
      | cur :: rest => if c = sep then [] :: cur :: rest else (c :: cur) :: rest)
    [[]]

/-- The path-segment list used by `score_path`:
`path.lower().replace("\\", "/").split("/")` with empty segments dropped.
Lowering a character and replacing a backslash commute per character. -/
def pathSegments (path : String) : List String :=
  ((splitOnChar '/'
      (path.toList.map (fun c => if c = '\\' then '/' else c.toLower))).map
    (fun l => String.mk l)).filter (fun s => s ≠ "")

/-- Embedding of `score_path` (src/lora_wizard.py lines 292-305). -/
def score_path (path : String) : Nat :=
  let parts := pathSegments path
  let leaf := parts.getLast?.getD ""
  let s1 : Nat :=
    if leaf = "loras" ∨ leaf = "lora" ∨ leaf = "lycoris" then 100
    else if is_lora_like leaf then 70 else 0
  let s2 : Nat := if parts.any (fun s => s = "models") then 40 else 0
  let s3 : Nat :=
    if 2 ≤ parts.length ∧ parts.getD (parts.length - 2) "" = "models" then 30 else 0
  s1 + s2 + s3

/-- Modelled from the spec: the scoring rule exactly as the specification
states it — base 0, plus 100 for an exact `loras`/`lora`/`lycoris` final
segment, else 70 when the final segment merely contains such a substring,
plus 40 when any segment is literally `models`, plus 30 when the segment
immediately preceding the final one is literally `models`. -/
def scoreSpec (path : String) : Nat :=
  let segs := pathSegments path
  let last := segs.getLast?.getD ""
  (if last = "loras" ∨ last = "lora" ∨ last = "lycoris" then 100
   else if is_lora_like last then 70 else 0)
  + (if segs.any (fun s => s = "models") then 40 else 0)
  + (if 2 ≤ segs.length ∧ segs.getD (segs.length - 2) "" = "models" then 30 else 0)

/-- Selection among lora-like candidates:
`sorted(set(...), key=lambda p: (score_path(p), -len(p)), reverse=True)[0]`,
i.e. an element maximizing the score and, among those, of minimal path
length (the Python `set` makes the choice among exact key ties
unspecified; the fold keeps the first such element). -/
def pickBetter (best q : String) : String :=
  if score_path q > score_path best ∨
     (score_path q = score_path best ∧ q.length < best.length)
  then q else best

def selectBest (cands : List String) : Option String :=
  match cands with
  | [] => none
  | c :: rest => some (rest.foldl pickBetter c)

/-- Number of `/` separators in a path (`p.count(os.sep)` on Linux). -/
def countSep (s : String) : Nat := s.toList.countP (fun c => c = '/')

/-- Selection among `models` directories:
`sorted(set(...), key=lambda p: (-(p.count(os.sep)), len(p)))[0]`,
i.e. the most deeply nested, tie-broken by shortest path. -/
def pickDeeper (best q : String) : String :=
  if countSep q > countSep best ∨
     (countSep q = countSep best ∧ q.length < best.length)
  then q else best

def selectBestModels (dirs : List String) : Option String :=
  match dirs with
  | [] => none
  | c :: rest => some (rest.foldl pickDeeper c)

/-- Directory names `os.walk` is told not to descend into. -/
def ignoreDirNames : List String := [".git", "node_modules", "venv", ".venv", "__pycache__"]

/-- The pruning test applied to each entry of `dirnames` before
candidates are collected or descended into. -/
def keepDir (c : FSTree) : Bool :=
  !(ignoreDirNames.any (fun n => n = c.nameOf)) && !(strStartsWith c.nameOf ".")

mutual

/-- Embedding of the candidate-collecting walk of `resolve_lora_target_dir`
over one root: returns `(lora_candidates, models_dirs)` in discovery
order.  At depth greater than 4 the children are pruned and nothing is
recorded; an unreadable directory yields nothing (`os.walk` silently
skips it). -/
def walkDir : FSTree → String → Nat → List String × List String
  | FSTree.node _ rd subs _, path, depth =>
    if depth > 4 then ([], [])
    else if rd then
      let kept := subs.filter keepDir
      let loras := (kept.filter (fun c => is_lora_like c.nameOf)).map
        (fun c => path ++ "/" ++ c.nameOf)
      let models := (kept.filter (fun c => lowerChars c.nameOf.toList = "models".toList)).map
        (fun c => path ++ "/" ++ c.nameOf)
      let rest := walkDirs subs path depth
      (loras ++ rest.1, models ++ rest.2)
    else ([], [])

/-- Top-down recursion of the walk into the subdirectories; pruned
entries are skipped. -/
def walkDirs : List FSTree → String → Nat → List String × List String
  | [], _, _ => ([], [])
  | c :: cs, path, depth =>
    let r1 :=
      if keepDir c then walkDir c (path ++ "/" ++ c.nameOf) (depth + 1)
      else ([], [])
    let r2 := walkDirs cs path depth
    (r1.1 ++ r2.1, r1.2 ++ r2.2)

end

/-- Python truthiness of `os.getenv(A) or os.getenv(B)` followed by
`if override_dir:`: the first nonempty value wins, an empty or missing
pair yields no override. -/
def overrideDir (a b : Option String) : Option String :=
  let v : Option String :=
    match a with
    | some s => if s.length ≠ 0 then some s else b
    | none => b
  match v with
  | some s => if s.length ≠ 0 then some s else none
  | none => none

/-- The two environment variables `resolve_lora_target_dir` consults. -/
structure EnvVars : Type where
  loraTargetDir : Option String
  lorasDir : Option String

/-- Embedding of `resolve_lora_target_dir`.  The search roots (starting
directory, its ancestors, `/workspace`) are supplied as pairs of absolute
path and directory tree; `mkdirOk p` is the observed outcome of
`os.makedirs(p, exist_ok=True)`; path normalization (`abspath`,
`expanduser`) is environment-dependent and treated as the identity. -/
def resolve_lora_target_dir (env : EnvVars) (baseDir : String)
    (roots : List (String × FSTree)) (mkdirOk : String → Bool) :
    String × ResolveStatus :=
  match overrideDir env.loraTargetDir env.lorasDir with
  | some od =>
    if mkdirOk od then (od, ResolveStatus.found_existing)
    else (od, ResolveStatus.error)
  | none =>
    let results := roots.map (fun r => walkDir r.2 r.1 0)
    let loraCands := (results.map Prod.fst).flatten
    let modelsDirs := (results.map Prod.snd).flatten
    match selectBest loraCands with
    | some best => (best, ResolveStatus.found_existing)
    | none =>
      let fb := baseDir ++ "/models/loras"
      match selectBestModels modelsDirs with
      | some bm =>
        if mkdirOk (bm ++ "/loras") then
          (bm ++ "/loras", ResolveStatus.created_in_models)
        else if mkdirOk fb then (fb, ResolveStatus.created_fallback)
        else (fb, ResolveStatus.error)
      | none =>
        if mkdirOk fb then (fb, ResolveStatus.created_fallback)
        else (fb, ResolveStatus.error)

mutual

/-- A tree none of whose directories (at any depth) is lora-like or named
`models`: the hypothesis of the fallback claim (a search scope containing
no such directory). -/
def noCandBelow : FSTree → Bool
  | FSTree.node _ _ subs _ => noCandList subs

/-- The `noCandBelow` condition over a list of subdirectories. -/
def noCandList : List FSTree → Bool
  | [] => true
  | c :: cs =>
    (!is_lora_like c.nameOf && !(lowerChars c.nameOf.toList = "models".toList) &&
      noCandBelow c) && noCandList cs

end

/-! ## Occurrence predicates for the masking claims -/

/-- `pat` occurs contiguously somewhere in `s`. -/
def occursIn (pat s : List Char) : Prop := ∃ i, pat <+: s.drop i

/-- No nonempty proper prefix of `tk` is also a suffix of `tk`
(`tk` has no border).  Stated over `List.range` so it is decidable. -/
def BorderFree (tk : List Char) : Prop :=
  ∀ d ∈ List.range tk.length, 0 < d → tk.take d ≠ tk.drop (tk.length - d)

instance decBorderFree (tk : List Char) : Decidable (BorderFree tk) :=
  List.decidableBAll _ _

/-! ## Helper lemmas -/

theorem isPrefixOf_true_iff {l₁ l₂ : List Char} :
    l₁.isPrefixOf l₂ = true ↔ l₁ <+: l₂ :=
  List.isPrefixOf_iff_prefix

theorem cons_pre_cons {a b : Char} {l₁ l₂ : List Char} :
    (a :: l₁) <+: (b :: l₂) ↔ a = b ∧ l₁ <+: l₂ :=
  List.cons_prefix_cons

/-- Induction principle for `FSTree` giving the hypothesis for every
member of the subdirectory list. -/
theorem FSTree.myInduction (motive : FSTree → Prop)
    (h : ∀ name rd subs files,
      (∀ c ∈ subs, motive c) → motive (FSTree.node name rd subs files)) :
    ∀ t, motive t
  | FSTree.node name rd subs files =>
    h name rd subs files (fun c _ => FSTree.myInduction motive h c)
termination_by t => sizeOf t
decreasing_by
  rename_i hc
  have := List.sizeOf_lt_of_mem hc
  simp only [FSTree.node.sizeOf_spec]
  omega

theorem containsSeq_iff (pat s : List Char) :
    containsSeq pat s = true ↔ occursIn pat s := by
  induction s with
  | nil =>
    simp only [containsSeq, occursIn, List.isEmpty_iff]
    constructor
    · intro h
      exact ⟨0, by simp [h]⟩
    · rintro ⟨i, hi⟩
      simp only [List.drop_nil] at hi
      obtain ⟨t, ht⟩ := hi
      exact (List.append_eq_nil.mp ht).1
  | cons c rest ih =>
    simp only [containsSeq, Bool.or_eq_true, isPrefixOf_true_iff, ih]
    constructor
    · rintro (h | ⟨i, hi⟩)
      · exact ⟨0, by simpa using h⟩
      · exact ⟨i + 1, by simpa using hi⟩
    · rintro ⟨i, hi⟩
      cases i with
      | zero => exact Or.inl (by simpa using hi)
      | succ j => exact Or.inr ⟨j, by simpa using hi⟩

theorem firstDigitRun_of_any (l : List Char) (h : l.any Char.isDigit = true) :
    ∃ r, firstDigitRun l = some r := by
  induction l with
  | nil => simp at h
  | cons c cs ih =>
    by_cases hc : c.isDigit
    · exact ⟨c :: cs.takeWhile Char.isDigit, by simp [firstDigitRun, hc]⟩
    · simp only [List.any_cons, hc, Bool.false_or] at h
      obtain ⟨r, hr⟩ := ih h
      exact ⟨r, by simp [firstDigitRun, hc, hr]⟩

theorem firstDigitRun_of_none (l : List Char) (h : l.any Char.isDigit = false) :
    firstDigitRun l = none := by
  induction l with
  | nil => rfl
  | cons c cs ih =>
    simp only [List.any_cons, Bool.or_eq_false_iff] at h
    simp [firstDigitRun, h.1, ih h.2]

/-! ## C10: short or missing tokens are returned unchanged -/

/-- C10: for every text, when the token argument is `None`, empty, or of
length strictly less than 8, `mask_sensitive_data` returns the input text
completely unchanged. -/
theorem mask_short_token_unchanged (text : List Char) (token : Option (List Char))
    (h : token = none ∨ ∃ tk, token = some tk ∧ tk.length < 8) :
    mask_sensitive_data text token = text := by
  rcases h with h | ⟨tk, rfl, hlt⟩
  · subst h; rfl
  · simp [mask_sensitive_data, hlt]

/-- Witness for C10 at a concrete text and a concrete 3-character token. -/
theorem mask_short_token_unchanged_witness :
    mask_sensitive_data "secret abc value".toList (some "abc".toList) =
      "secret abc value".toList :=
  mask_short_token_unchanged _ _ (Or.inr ⟨"abc".toList, rfl, by decide⟩)

/-! ## C3: epoch-range defaulting and swapping -/

/-- C3: with neither bound supplied, a discovered maximum below 10 keeps
the full range; otherwise the lower bound is 10 when the minimum is below
10 (else the minimum) and the upper bound is 200 when the maximum exceeds
200 (else the maximum).  Supplied inverted bounds are swapped, and input
from=5, to=2 yields 2..5. -/
theorem epoch_range_policy (minE maxE f t : Nat) :
    (maxE < 10 → defaultEpochRange minE maxE = (minE, maxE)) ∧
    (10 ≤ maxE →
      defaultEpochRange minE maxE =
        (if minE < 10 then 10 else minE, if 200 < maxE then 200 else maxE)) ∧
    (t < f → swapIfInverted f t = (t, f)) ∧
    swapIfInverted 5 2 = (2, 5) := by
  refine ⟨fun h => ?_, fun h => ?_, fun h => ?_, by decide⟩
  · simp [defaultEpochRange, h]
  · have hn : ¬ maxE < 10 := by omega
    simp [defaultEpochRange, hn]
  · simp [swapIfInverted, h]

/-- Witness for C3 at min=3, max=250 (clamped to 10..200) and the
spec-mandated inverted input from=5, to=2. -/
theorem epoch_range_policy_witness :
    defaultEpochRange 3 250 = (10, 200) ∧ swapIfInverted 5 2 = (2, 5) := by
  have h := epoch_range_policy 3 250 5 2
  exact ⟨by rw [h.2.1 (by decide)]; decide, h.2.2.2⟩

/-! ## C8: digit-free epoch folder names sort last -/

/-- C8: a folder name containing at least one decimal digit receives a
numeric sort key while a digit-free name receives the infinite key, so
the digit-free name orders strictly after the digit-bearing one. -/
theorem digitless_sorts_last (a b : String)
    (ha : a.toList.any Char.isDigit = true)
    (hb : b.toList.any Char.isDigit = false) :
    epochSortKey b = none ∧
    (∃ n, epochSortKey a = some n) ∧
    epochKeyLt (epochSortKey a) (epochSortKey b) = true := by
  obtain ⟨r, hr⟩ := firstDigitRun_of_any a.toList ha
  have hbn : firstDigitRun b.toList = none := firstDigitRun_of_none b.toList hb
  have h1 : epochSortKey a = some (digitsVal r) := by
    show (firstDigitRun a.toList).map digitsVal = some (digitsVal r)
    rw [hr]; rfl
  have h2 : epochSortKey b = none := by
    show (firstDigitRun b.toList).map digitsVal = none
    rw [hbn]; rfl
  exact ⟨h2, ⟨digitsVal r, h1⟩, by rw [h1, h2]; rfl⟩

/-- Witness for C8 at the names epoch12 and epochfinal. -/
theorem digitless_sorts_last_witness :
    epochSortKey "epochfinal" = none ∧
    (∃ n, epochSortKey "epoch12" = some n) ∧
    epochKeyLt (epochSortKey "epoch12") (epochSortKey "epochfinal") = true :=
  digitless_sorts_last "epoch12" "epochfinal" (by decide) (by decide)

/-! ## C6: environment-variable override -/

/-- C6 counterexample: with the override set to a nonempty path but
directory creation failing, the resolver returns the `error` status, not
`found_existing` — refuting the claim that `found_existing` is returned
regardless of whether creation succeeds. -/
theorem override_error_counterexample :
    resolve_lora_target_dir ⟨some "/override/loras", none⟩ "/base" [] (fun _ => false) =
      ("/override/loras", ResolveStatus.error) ∧
    ResolveStatus.error ≠ ResolveStatus.found_existing := by
  exact ⟨by decide, by decide⟩

/-- C6 (amended): with the override set to a nonempty path, the resolver
returns that path unconditionally; the status is `found_existing` exactly
when `os.makedirs` on it succeeds and `error` when it fails. -/
theorem override_status (env : EnvVars) (baseDir : String)
    (roots : List (String × FSTree)) (mk : String → Bool) (od : String)
    (h : overrideDir env.loraTargetDir env.lorasDir = some od) :
    resolve_lora_target_dir env baseDir roots mk =
      (od, if mk od then ResolveStatus.found_existing else ResolveStatus.error) := by
  unfold resolve_lora_target_dir
  rw [h]
  by_cases hm : mk od <;> simp [hm]

/-- Witness for C6 at a concrete override with successful creation. -/
theorem override_status_witness :
    resolve_lora_target_dir ⟨some "/ovr", none⟩ "/b" [] (fun _ => true) =
      ("/ovr", ResolveStatus.found_existing) := by
  have h := override_status ⟨some "/ovr", none⟩ "/b" [] (fun _ => true) "/ovr" (by decide)
  simpa using h

/-! ## C9: models-subdirectory creation failure falls through -/

/-- C9: with no override, no lora-like candidate, at least one `models`
directory, and creation of the `loras` subdirectory under the selected
`models` directory failing, the resolver swallows the failure and falls
through to the `models/loras` fallback under the starting directory; the
`error` tag can only be produced for the fallback path. -/
theorem models_mkdir_failure_falls_back (env : EnvVars) (baseDir : String)
    (roots : List (String × FSTree)) (mk : String → Bool) (bm : String)
    (hov : overrideDir env.loraTargetDir env.lorasDir = none)
    (hlora : selectBest ((roots.map (fun r => walkDir r.2 r.1 0)).map Prod.fst).flatten = none)
    (hm : selectBestModels ((roots.map (fun r => walkDir r.2 r.1 0)).map Prod.snd).flatten
      = some bm)
    (hfail : mk (bm ++ "/loras") = false) :
    resolve_lora_target_dir env baseDir roots mk =
      (baseDir ++ "/models/loras",
        if mk (baseDir ++ "/models/loras") then ResolveStatus.created_fallback
        else ResolveStatus.error) := by
  unfold resolve_lora_target_dir
  rw [hov]
  simp only [hlora, hm, hfail]
  by_cases hf : mk (baseDir ++ "/models/loras") <;> simp [hf]

/-- Witness for C9: a single root containing only a `models` directory,
with creation succeeding only for the fallback path. -/
theorem models_mkdir_failure_falls_back_witness :
    resolve_lora_target_dir ⟨none, none⟩ "/base"
      [("/w", FSTree.node "w" true [FSTree.node "models" true [] []] [])]
      (fun s => s = "/base/models/loras") =
      ("/base/models/loras", ResolveStatus.created_fallback) := by
  have h := models_mkdir_failure_falls_back ⟨none, none⟩ "/base"
    [("/w", FSTree.node "w" true [FSTree.node "models" true [] []] [])]
    (fun s => s = "/base/models/loras") "/w/models"
    (by decide) (by decide) (by decide) (by decide)
  simpa using h

/-! ## C7: fallback creation when the scope has no candidate -/

theorem noCandList_forall (cs : List FSTree) (h : noCandList cs = true) :
    ∀ c ∈ cs, is_lora_like c.nameOf = false ∧
      lowerChars c.nameOf.toList ≠ "models".toList ∧ noCandBelow c = true := by
  induction cs with
  | nil => intro c hc; cases hc
  | cons c cs ih =>
    rw [noCandList] at h
    simp only [Bool.and_eq_true, Bool.not_eq_true', decide_eq_true_eq] at h
    intro d hd
    rcases List.mem_cons.mp hd with rfl | hmem
    · exact ⟨h.1.1.1, by simpa using h.1.1.2, h.1.2⟩
    · exact ih h.2 d hmem

theorem walkDirs_of_pointwise_empty (cs : List FSTree) (path : String) (depth : Nat)
    (h : ∀ c ∈ cs, ∀ p d, walkDir c p d = ([], [])) :
    walkDirs cs path depth = ([], []) := by
  induction cs with
  | nil => rfl
  | cons c cs ih =>
    rw [walkDirs]
    rw [h c (List.mem_cons_self c cs) (path ++ "/" ++ c.nameOf) (depth + 1)]
    rw [ih (fun d hd => h d (List.mem_cons_of_mem c hd))]
    simp

theorem walkDir_of_noCand :
    ∀ (t : FSTree), noCandBelow t = true → ∀ (path : String) (depth : Nat),
      walkDir t path depth = ([], []) := by
  intro t
  induction t using FSTree.myInduction with
  | h name rd subs files ih =>
    intro hn path depth
    rw [noCandBelow] at hn
    have hall := noCandList_forall subs hn
    rw [walkDir]
    by_cases hd : depth > 4
    · simp [hd]
    · simp only [hd, if_false]
      cases rd
      · simp
      · simp only [if_true]
        have hkeep : ∀ c ∈ subs.filter keepDir, c ∈ subs :=
          fun c hc => (List.mem_filter.mp hc).1
        have h1 : (subs.filter keepDir).filter (fun c => is_lora_like c.nameOf) = [] := by
          apply List.filter_eq_nil_iff.mpr
          intro c hc
          simp [(hall c (hkeep c hc)).1]
        have h2 : (subs.filter keepDir).filter
            (fun c => lowerChars c.nameOf.toList = "models".toList) = [] := by
          apply List.filter_eq_nil_iff.mpr
          intro c hc
          have hne := (hall c (hkeep c hc)).2.1
          simp only [decide_eq_true_eq]
          exact fun hEq => hne hEq
        have h3 : walkDirs subs path depth = ([], []) :=
          walkDirs_of_pointwise_empty subs path depth
            (fun c hc => ih c hc (hall c hc).2.2)
        rw [h1, h2, h3]
        simp

/-- C7: with no override set and a search scope containing no lora-like
directory and no directory named `models`, the resolver creates and
returns the `models/loras` path under the starting directory with the
`created_fallback` status. -/
theorem resolver_creates_fallback (env : EnvVars) (baseDir : String)
    (roots : List (String × FSTree)) (mk : String → Bool)
    (hov : overrideDir env.loraTargetDir env.lorasDir = none)
    (hscope : ∀ r ∈ roots, noCandBelow r.2 = true)
    (hmk : mk (baseDir ++ "/models/loras") = true) :
    resolve_lora_target_dir env baseDir roots mk =
      (baseDir ++ "/models/loras", ResolveStatus.created_fallback) := by
  have hwalk : roots.map (fun r => walkDir r.2 r.1 0) = roots.map (fun _ => ([], [])) := by
    apply List.map_congr_left
    intro r hr
    exact walkDir_of_noCand r.2 (hscope r hr) r.1 0
  have hflat1 : ((roots.map (fun r => walkDir r.2 r.1 0)).map Prod.fst).flatten
      = ([] : List String) := by
    rw [hwalk]
    simp [List.flatten_eq_nil_iff]
  have hflat2 : ((roots.map (fun r => walkDir r.2 r.1 0)).map Prod.snd).flatten
      = ([] : List String) := by
    rw [hwalk]
    simp [List.flatten_eq_nil_iff]
  unfold resolve_lora_target_dir
  rw [hov]
  simp only [hflat1, hflat2]
  simp [selectBest, selectBestModels, hmk]

/-- Witness for C7: one root whose single subdirectory is an unrelated
`data` directory. -/
theorem resolver_creates_fallback_witness :
    resolve_lora_target_dir ⟨none, none⟩ "/base"
      [("/w", FSTree.node "w" true [FSTree.node "data" true [] []] [])]
      (fun _ => true) =
      ("/base/models/loras", ResolveStatus.created_fallback) :=
  resolver_creates_fallback ⟨none, none⟩ "/base"
    [("/w", FSTree.node "w" true [FSTree.node "data" true [] []] [])]
    (fun _ => true) (by decide) (by decide) (by decide)

/-! ## C1: scoring rule and candidate selection -/

theorem foldl_pickBetter_spec (l : List String) :
    ∀ init : String,
      (l.foldl pickBetter init = init ∨ l.foldl pickBetter init ∈ l) ∧
      (score_path init ≤ score_path (l.foldl pickBetter init) ∧
        (score_path init = score_path (l.foldl pickBetter init) →
          (l.foldl pickBetter init).length ≤ init.length)) ∧
      (∀ q ∈ l, score_path q ≤ score_path (l.foldl pickBetter init) ∧
        (score_path q = score_path (l.foldl pickBetter init) →
          (l.foldl pickBetter init).length ≤ q.length)) := by
  induction l with
  | nil =>
    intro init
    exact ⟨Or.inl rfl, ⟨le_refl _, fun _ => le_refl _⟩,
      fun q hq => absurd hq (List.not_mem_nil q)⟩
  | cons q l ih =>
    intro init
    rw [List.foldl_cons]
    obtain ⟨ihmem, ihrel, ihall⟩ := ih (pickBetter init q)
    have hstep1 : score_path init ≤ score_path (pickBetter init q) ∧
        (score_path init = score_path (pickBetter init q) →
          (pickBetter init q).length ≤ init.length) := by
      unfold pickBetter
      split
      · rename_i hcond
        constructor
        · omega
        · intro h; omega
      · exact ⟨le_refl _, fun _ => le_refl _⟩
    have hstep2 : score_path q ≤ score_path (pickBetter init q) ∧
        (score_path q = score_path (pickBetter init q) →
          (pickBetter init q).length ≤ q.length) := by
      unfold pickBetter
      split
      · exact ⟨le_refl _, fun _ => le_refl _⟩
      · rename_i hcond
        push_neg at hcond
        constructor
        · omega
        · intro h; omega
    refine ⟨?_, ⟨by omega, fun h => ?_⟩, ?_⟩
    · rcases ihmem with h | h
      · have : pickBetter init q = q ∨ pickBetter init q = init := by
          unfold pickBetter; split
          · exact Or.inl rfl
          · exact Or.inr rfl
        rcases this with h2 | h2
        · exact Or.inr (by rw [h, h2]; exact List.mem_cons_self q l)
        · exact Or.inl (by rw [h, h2])
      · exact Or.inr (List.mem_cons_of_mem q h)
    · omega
    · intro p hp
      rcases List.mem_cons.mp hp with rfl | hmem
      · constructor
        · omega
        · intro h; omega
      · exact ihall p hmem

theorem selectBest_spec (cands : List String) (b : String) (h : selectBest cands = some b) :
    b ∈ cands ∧ ∀ q ∈ cands, score_path q ≤ score_path b ∧
      (score_path q = score_path b → b.length ≤ q.length) := by
  match cands with
  | [] => exact absurd h (by simp [selectBest])
  | c :: rest =>
    have hb : rest.foldl pickBetter c = b := by
      have h2 := h
      rw [selectBest] at h2
      exact Option.some.inj h2
    obtain ⟨hmem, hrel, hall⟩ := foldl_pickBetter_spec rest c
    rw [hb] at hmem hrel hall
    refine ⟨?_, ?_⟩
    · rcases hmem with h2 | h2
      · rw [h2]; exact List.mem_cons_self c rest
      · exact List.mem_cons_of_mem c h2
    · intro p hp
      rcases List.mem_cons.mp hp with rfl | hmem2
      · exact hrel
      · exact hall p hmem2

/-- C1: the relevance score of every candidate path equals the additive
rule of the specification (exact lora-like final segment +100, else
containing +70, any `models` segment +40, `models` immediately above the
final segment +30), and the selected candidate maximizes this score with
ties broken toward the shorter absolute path; in particular with both
`./loras` (score 100) and `./models/loras` (score 170) present, the
latter is selected. -/
theorem score_path_spec_and_selection (p : String) (cands : List String) (b : String)
    (hsel : selectBest cands = some b) :
    score_path p = scoreSpec p ∧
    b ∈ cands ∧
    (∀ q ∈ cands, score_path q ≤ score_path b ∧
      (score_path q = score_path b → b.length ≤ q.length)) ∧
    score_path "./loras" = 100 ∧
    score_path "./models/loras" = 170 ∧
    selectBest ["./loras", "./models/loras"] = some "./models/loras" := by
  obtain ⟨hmem, hmax⟩ := selectBest_spec cands b hsel
  exact ⟨rfl, hmem, hmax, by decide, by decide, by decide⟩

/-- Witness for C1 at the two-candidate list mandated by the
specification example. -/
theorem score_path_spec_and_selection_witness :
    score_path "./models/loras" = scoreSpec "./models/loras" ∧
    "./models/loras" ∈ ["./loras", "./models/loras"] := by
  have h := score_path_spec_and_selection "./models/loras"
    ["./loras", "./models/loras"] "./models/loras" (by decide)
  exact ⟨h.1, h.2.1⟩

/-! ## C4: first-file-wins aggregation -/

theorem lookupKV_foldl_step (f : String → Option String) (keys : List String) :
    ∀ (acc : List (String × String)) (k : String),
      lookupKV (keys.foldl (fun acc k =>
          match f k with
          | some v => if (lookupKV acc k).isNone then (k, v) :: acc else acc
          | none => acc) acc) k
        = (lookupKV acc k).or (if k ∈ keys then f k else none) := by
  induction keys with
  | nil =>
    intro acc k
    simp
  | cons kk keys ih =>
    intro acc k
    rw [List.foldl_cons]
    rw [ih]
    have hstep : lookupKV
        (match f kk with
          | some v => if (lookupKV acc kk).isNone then (kk, v) :: acc else acc
          | none => acc) k
        = if kk = k then (lookupKV acc k).or (f kk) else lookupKV acc k := by
      cases hf : f kk with
      | none =>
        by_cases hkk : kk = k
        · subst hkk
          simp [hf]
        · simp [hkk]
      | some v =>
        by_cases hkk : kk = k
        · subst hkk
          cases hl : lookupKV acc kk with
          | none => simp [hf, hl, lookupKV]
          | some w => simp [hf, hl]
        · cases hl : lookupKV acc kk with
          | none => simp [hf, hl, lookupKV, hkk]
          | some w => simp [hf, hl, hkk]
    rw [hstep]
    by_cases hkk : kk = k
    · subst hkk
      rw [if_pos rfl, if_pos (List.mem_cons_self kk keys)]
      by_cases hmem : kk ∈ keys
      · rw [if_pos hmem]
        cases lookupKV acc kk <;> cases f kk <;> rfl
      · rw [if_neg hmem]
        cases lookupKV acc kk <;> cases f kk <;> rfl
    · rw [if_neg hkk]
      have hiff : (k ∈ kk :: keys) ↔ (k ∈ keys) := by
        constructor
        · intro h
          rcases List.mem_cons.mp h with h2 | h2
          · exact absurd h2.symm hkk
          · exact h2
        · intro h
          exact List.mem_cons_of_mem kk h
      by_cases hmem : k ∈ keys
      · rw [if_pos hmem, if_pos (hiff.mpr hmem)]
      · rw [if_neg hmem, if_neg (fun h => hmem (hiff.mp h))]

theorem lookupKV_addParsedFile (info : List (String × String))
    (f : String → Option String) (k : String) :
    lookupKV (addParsedFile info f) k
      = (lookupKV info k).or (if k ∈ interesting_keys then f k else none) :=
  lookupKV_foldl_step f interesting_keys info k

theorem collect_foldl_lookup (k : String) (hk : k ∈ interesting_keys) :
    ∀ (files : List (String → Option String)) (info : List (String × String)),
      lookupKV (files.foldl addParsedFile info) k
        = (lookupKV info k).or (files.findSome? (fun f => f k)) := by
  intro files
  induction files with
  | nil =>
    intro info
    simp
  | cons f fs ih =>
    intro info
    rw [List.foldl_cons, ih (addParsedFile info f), lookupKV_addParsedFile, if_pos hk]
    cases hf : f k <;> cases hl : lookupKV info k <;>
      simp [List.findSome?_cons, hf, Option.or]

/-- C4: for every discovery-ordered sequence of parsed configuration
files and every allow-listed key, the aggregated record holds the value
of the first file defining that key; later files cannot overwrite it. -/
theorem training_info_first_file_wins (files : List (String → Option String))
    (k : String) (hk : k ∈ interesting_keys) :
    lookupKV (collect_training_info files) k = files.findSome? (fun f => f k) := by
  have h := collect_foldl_lookup k hk files []
  simpa using h

/-- Witness for C4: two files both defining `learning_rate`; the value
of the first file wins regardless of the second. -/
theorem training_info_first_file_wins_witness :
    lookupKV (collect_training_info
      [fun k => if k = "learning_rate" then some "0.0001" else none,
       fun k => if k = "learning_rate" then some "0.01" else none]) "learning_rate"
      = some "0.0001" := by
  rw [training_info_first_file_wins _ _ (by decide)]
  rfl

/-! ## C2: run-directory scan -/

/-- C2 counterexample: a tree whose single epoch folder contains no file
at all, only a subdirectory named `w.safetensors`.  The scan still
records the parent (the `os.listdir` entries are tested without an
`isfile` check), while the file-based run test of the specification is
false there. -/
theorem scan_for_runs_counterexample :
    scanForRuns (FSTree.node "root" true
        [FSTree.node "epoch1" true [FSTree.node "w.safetensors" true [] []] []] [])
      = [[]] ∧
    hasEpochRunChildSpec
        [FSTree.node "epoch1" true [FSTree.node "w.safetensors" true [] []] []]
      = false := by
  exact ⟨by decide, by decide⟩

theorem mem_scanChildren (subs : List FSTree) (acc : List String) (d : Nat)
    (p : List String) :
    p ∈ scanChildren subs acc d ↔
      ∃ c ∈ subs, p ∈ scanDir c (acc ++ [c.nameOf]) (d + 1) := by
  induction subs with
  | nil => simp [scanChildren]
  | cons c cs ih =>
    rw [scanChildren]
    simp only [List.mem_append, ih]
    constructor
    · rintro (h | ⟨c2, hc2, h⟩)
      · exact ⟨c, List.mem_cons_self c cs, h⟩
      · exact ⟨c2, List.mem_cons_of_mem c hc2, h⟩
    · rintro ⟨c2, hc2, h⟩
      rcases List.mem_cons.mp hc2 with rfl | hmem
      · exact Or.inl h
      · exact Or.inr ⟨c2, hmem, h⟩

theorem mem_scanDir_iff :
    ∀ (t : FSTree) (acc : List String) (d : Nat) (p : List String),
      p ∈ scanDir t acc d ↔
        ∃ rel u, p = acc ++ rel ∧ DirIn t rel u ∧ d + rel.length ≤ 6 ∧
          u.readableOf = true ∧ hasEpochRunChild u.subdirsOf = true := by
  intro t
  induction t using FSTree.myInduction with
  | h name rd subs files ih =>
    intro acc d p
    rw [scanDir]
    by_cases hd : d > 6
    · simp only [if_pos hd, List.not_mem_nil, false_iff]
      rintro ⟨rel, u, _, _, hlen, _, _⟩
      omega
    · rw [if_neg hd]
      cases rd with
      | false =>
        simp only [if_neg (Bool.false_ne_true), List.not_mem_nil, false_iff]
        rintro ⟨rel, u, _, hdir, _, hrd2, _⟩
        cases hdir with
        | here => exact absurd hrd2 (by simp [FSTree.readableOf])
        | child _ c u p' hrdt hc hdir2 => exact absurd hrdt (by simp [FSTree.readableOf])
      | true =>
        rw [if_pos rfl]
        simp only [List.mem_append, mem_scanChildren]
        constructor
        · rintro (h1 | ⟨c, hc, h2⟩)
          · by_cases hrun : hasEpochRunChild subs
            · rw [if_pos hrun] at h1
              have hp : p = acc := by simpa using h1
              refine ⟨[], FSTree.node name true subs files, by simp [hp],
                DirIn.here _, by simpa using Nat.le_of_lt_succ (by omega), rfl, hrun⟩
            · rw [if_neg hrun] at h1
              exact absurd h1 (List.not_mem_nil p)
          · obtain ⟨rel, u, hp, hdir, hlen, h4, h5⟩ := (ih c hc _ _ _).mp h2
            refine ⟨c.nameOf :: rel, u, by simp [hp], ?_, ?_, h4, h5⟩
            · exact DirIn.child _ c u rel rfl hc hdir
            · simp only [List.length_cons]
              omega
        · rintro ⟨rel, u, hp, hdir, hlen, h4, h5⟩
          cases hdir with
          | here =>
            left
            have hrun : hasEpochRunChild subs = true := h5
            rw [if_pos hrun]
            simp [hp]
          | child _ c u p' hrdt hc hdir2 =>
            right
            refine ⟨c, hc, (ih c hc _ _ _).mpr ⟨p', u, ?_, hdir2, ?_, h4, h5⟩⟩
            · simp [hp]
            · simp only [List.length_cons] at hlen
              omega

/-- C2 (amended): the scan records a directory exactly when it sits at
depth at most 6 below the root (every directory strictly above it being
readable), is itself readable, and has an immediate child subdirectory
whose name starts with `epoch` that is readable and contains at least one
directory entry — file or subdirectory — whose name ends in
`.safetensors`; the recorded path is the parent of the epoch folder,
never the epoch folder itself, and unreadable directories contribute
nothing. -/
theorem scan_for_runs_characterization (t : FSTree) (p : List String) :
    p ∈ scanForRuns t ↔
      ∃ u, DirIn t p u ∧ p.length ≤ 6 ∧ u.readableOf = true ∧
        hasEpochRunChild u.subdirsOf = true := by
  constructor
  · intro hp
    obtain ⟨rel, u, hpe, hdir, hlen, h4, h5⟩ := (mem_scanDir_iff t [] 0 p).mp hp
    simp only [List.nil_append] at hpe
    subst hpe
    exact ⟨u, hdir, by omega, h4, h5⟩
  · rintro ⟨u, hdir, hlen, h4, h5⟩
    exact (mem_scanDir_iff t [] 0 p).mpr ⟨p, u, by simp, hdir, by omega, h4, h5⟩

/-! ## C5: masking — replacement structure lemmas -/

theorem pyRepAux_skip (pat rep : List Char) :
    ∀ (s : List Char) (k : Nat), pyRepAux s pat rep k = pyRepAux (s.drop k) pat rep 0 := by
  intro s
  induction s with
  | nil => intro k; cases k <;> rfl
  | cons c rest ih =>
    intro k
    cases k with
    | zero => rfl
    | succ j =>
      have h1 : pyRepAux (c :: rest) pat rep (j + 1) = pyRepAux rest pat rep j := rfl
      rw [h1, ih j]
      rfl

theorem pyReplace_cons (c : Char) (rest pat rep : List Char) :
    pyReplace (c :: rest) pat rep =
      if pat ≠ [] ∧ pat.isPrefixOf (c :: rest)
      then rep ++ pyReplace ((c :: rest).drop pat.length) pat rep
      else c :: pyReplace rest pat rep := by
  by_cases h : pat ≠ [] ∧ pat.isPrefixOf (c :: rest)
  · rw [if_pos h]
    have h1 : pyReplace (c :: rest) pat rep = rep ++ pyRepAux rest pat rep (pat.length - 1) := by
      show pyRepAux (c :: rest) pat rep 0 = _
      rw [pyRepAux]
      rw [if_pos h]
    rw [h1, pyRepAux_skip]
    have h2 : (c :: rest).drop pat.length = rest.drop (pat.length - 1) := by
      obtain ⟨p0, ps, rfl⟩ : ∃ p0 ps, pat = p0 :: ps := by
        cases pat with
        | nil => exact absurd rfl h.1
        | cons p0 ps => exact ⟨p0, ps, rfl⟩
      simp
    rw [h2]
    rfl
  · rw [if_neg h]
    show pyRepAux (c :: rest) pat rep 0 = _
    rw [pyRepAux]
    rw [if_neg h]
    rfl

theorem drop_pre_of_pre (l w : List Char) (j : Nat) (h : l <+: w)
    (hj : j ≤ l.length) : l.drop j <+: w.drop j := by
  obtain ⟨s, rfl⟩ := h
  rw [List.drop_append_of_le_length hj]
  exact ⟨s, rfl⟩

theorem take_len_of_pre (w Y : List Char) (h : w <+: Y) : Y.take w.length = w := by
  obtain ⟨s, rfl⟩ := h
  rw [List.take_append_of_le_length (le_refl _), List.take_length]

theorem maskedToken_length (tk : List Char) (h8 : 8 ≤ tk.length) :
    (maskedToken tk).length = 11 := by
  simp [maskedToken]
  omega

theorem maskedToken_drop4 (tk : List Char) (h8 : 8 ≤ tk.length) :
    (maskedToken tk).drop 4 = '.' :: '.' :: '.' :: tk.drop (tk.length - 4) := by
  have l1 : (tk.take 4).length = 4 := by simp; omega
  rw [maskedToken, List.drop_append_eq_append_drop, l1]
  rw [List.drop_eq_nil_of_le (le_of_eq l1)]
  rfl

theorem maskedToken_drop_dotHead (tk : List Char) (h8 : 8 ≤ tk.length) (j : Nat)
    (h4 : 4 ≤ j) (h6 : j ≤ 6) :
    ∃ d, (maskedToken tk).drop j = '.' :: d := by
  have h := maskedToken_drop4 tk h8
  interval_cases j
  · exact ⟨_, h⟩
  · rw [show (5 : Nat) = 4 + 1 from rfl, ← List.drop_drop, h]
    exact ⟨_, rfl⟩
  · rw [show (6 : Nat) = 4 + 2 from rfl, ← List.drop_drop, h]
    exact ⟨_, rfl⟩

theorem maskedToken_drop_late (tk : List Char) (h8 : 8 ≤ tk.length) (i : Nat)
    (h7 : 7 ≤ i) :
    (maskedToken tk).drop i = (tk.drop (tk.length - 4)).drop (i - 7) := by
  obtain ⟨j, rfl⟩ : ∃ j, i = j + 7 := ⟨i - 7, by omega⟩
  simp only [Nat.add_sub_cancel]
  rw [Nat.add_comm j 7, ← List.drop_drop]
  congr 1
  rw [show (7 : Nat) = 4 + 3 from rfl, ← List.drop_drop, maskedToken_drop4 tk h8]
  rfl

theorem take_small_eq_take (tk X : List Char) (h8 : 8 ≤ tk.length) (d : Nat)
    (hd4 : d ≤ 4) : ((maskedToken tk) ++ X).take d = tk.take d := by
  have l1 : (tk.take 4).length = 4 := by simp; omega
  rw [List.take_append_of_le_length (by rw [maskedToken_length tk h8]; omega)]
  rw [maskedToken, List.take_append_of_le_length (by rw [l1]; omega)]
  rw [List.take_take, Nat.min_eq_left hd4]

theorem dot_mem_of_pre_mid (tk w X : List Char) (h8 : 8 ≤ tk.length) (i : Nat)
    (hi : i ≤ 6) (hlen : 4 - i < w.length)
    (hpre : w <+: (maskedToken tk).drop i ++ X) : '.' ∈ w := by
  have hmlen := maskedToken_length tk h8
  have h1 : w.drop (4 - i) <+: ((maskedToken tk).drop i ++ X).drop (4 - i) :=
    drop_pre_of_pre _ _ _ hpre (by omega)
  have h2 : ((maskedToken tk).drop i ++ X).drop (4 - i)
      = (maskedToken tk).drop (i + (4 - i)) ++ X := by
    rw [List.drop_append_of_le_length (by simp [hmlen]; omega)]
    rw [List.drop_drop]
  obtain ⟨d, hd⟩ := maskedToken_drop_dotHead tk h8 (i + (4 - i)) (by omega) (by omega)
  rw [h2, hd] at h1
  cases hw : w.drop (4 - i) with
  | nil =>
    have : (w.drop (4 - i)).length = w.length - (4 - i) := by simp
    rw [hw] at this
    simp at this
    omega
  | cons x xs =>
    rw [hw] at h1
    have hx : x = '.' := (cons_pre_cons.mp (by simpa using h1)).1
    have hxmem : x ∈ w :=
      List.mem_of_mem_drop (by rw [hw]; exact List.mem_cons_self x xs)
    rw [← hx]
    exact hxmem

theorem border_eq_of_pre_small (tk X : List Char) (h8 : 8 ≤ tk.length) (k : Nat)
    (hk : k < tk.length) (hd4 : tk.length - k ≤ 4)
    (hpre : tk.drop k <+: (maskedToken tk) ++ X) :
    tk.take (tk.length - k) = tk.drop (tk.length - (tk.length - k)) := by
  have hlen : (tk.drop k).length = tk.length - k := by simp
  have h1 : ((maskedToken tk) ++ X).take (tk.drop k).length = tk.drop k :=
    take_len_of_pre _ _ hpre
  rw [hlen] at h1
  rw [take_small_eq_take tk X h8 _ hd4] at h1
  rw [h1]
  congr 1
  omega

theorem border_eq_of_pre_late (tk X : List Char) (h8 : 8 ≤ tk.length) (i : Nat)
    (h7 : 7 ≤ i) (h10 : i ≤ 10)
    (hpre : tk <+: (maskedToken tk).drop i ++ X) :
    tk.take (11 - i) = tk.drop (tk.length - (11 - i)) := by
  have hmlen := maskedToken_length tk h8
  have hdlen : ((maskedToken tk).drop i).length = 11 - i := by simp [hmlen]
  have ht1 : ((maskedToken tk).drop i ++ X).take (11 - i) = tk.take (11 - i) := by
    obtain ⟨s, hs⟩ := hpre
    rw [← hs, List.take_append_of_le_length (by omega)]
  have ht2 : ((maskedToken tk).drop i ++ X).take (11 - i) = (maskedToken tk).drop i := by
    rw [List.take_append_of_le_length (le_of_eq hdlen.symm)]
    exact List.take_of_length_le (le_of_eq hdlen)
  have ht3 : (maskedToken tk).drop i = tk.drop (tk.length - (11 - i)) := by
    rw [maskedToken_drop_late tk h8 i h7, List.drop_drop]
    congr 1
    omega
  rw [← ht1, ht2, ht3]

theorem token_suffix_scan_inv (tk : List Char) (h8 : 8 ≤ tk.length)
    (hdot : '.' ∉ tk) (hbf : BorderFree tk) :
    ∀ (text : List Char) (k : Nat), k < tk.length →
      ¬ tk <+: (tk.take k ++ text) →
      ¬ (tk.drop k) <+: pyReplace text tk (maskedToken tk) := by
  intro text
  induction text with
  | nil =>
    intro k hk _ hpre
    rw [show pyReplace [] tk (maskedToken tk) = [] from rfl] at hpre
    have hlen : (tk.drop k).length ≤ 0 := by simpa using hpre.length_le
    simp only [List.length_drop] at hlen
    omega
  | cons c rest ih =>
    intro k hk hno hpre
    rw [pyReplace_cons] at hpre
    by_cases hm : tk ≠ [] ∧ tk.isPrefixOf (c :: rest)
    · rw [if_pos hm] at hpre
      by_cases hbig : 4 < tk.length - k
      · have hpre0 : tk.drop k <+: (maskedToken tk).drop 0 ++
            pyReplace ((c :: rest).drop tk.length) tk (maskedToken tk) := by
          simpa using hpre
        have hd := dot_mem_of_pre_mid tk (tk.drop k) _ h8 0 (by omega)
          (by simp; omega) hpre0
        exact hdot (List.mem_of_mem_drop hd)
      · have hb := border_eq_of_pre_small tk _ h8 k hk (by omega) hpre
        exact hbf (tk.length - k) (List.mem_range.mpr (by omega)) (by omega) hb
    · rw [if_neg hm] at hpre
      have htkne : tk ≠ [] := by
        intro h
        rw [h] at h8
        simp at h8
      have hdropk : tk.drop k = tk[k] :: tk.drop (k + 1) := List.drop_eq_getElem_cons hk
      rw [hdropk] at hpre
      obtain ⟨hhead, htail⟩ := cons_pre_cons.mp hpre
      have htake1 : tk.take (k + 1) = tk.take k ++ [tk[k]] := by
        rw [List.take_succ, List.getElem?_eq_getElem hk]
        rfl
      by_cases hk1 : k + 1 < tk.length
      · refine ih (k + 1) hk1 ?_ htail
        intro hcon
        apply hno
        rw [htake1, hhead] at hcon
        simpa [List.append_assoc] using hcon
      · apply hno
        have hkn : k + 1 = tk.length := by omega
        have htk : tk = tk.take k ++ [tk[k]] := by
          rw [← htake1, hkn, List.take_length]
        rw [hhead] at htk
        refine ⟨rest, ?_⟩
        conv_lhs => rw [htk]
        simp

theorem token_not_in_pyReplace_aux (tk : List Char) (h8 : 8 ≤ tk.length)
    (hdot : '.' ∉ tk) (hbf : BorderFree tk) :
    ∀ (L : Nat) (text : List Char), text.length ≤ L →
      ∀ i, ¬ tk <+: (pyReplace text tk (maskedToken tk)).drop i := by
  intro L
  induction L with
  | zero =>
    intro text hlen i hpre
    have htext : text = [] := List.length_eq_zero.mp (Nat.le_zero.mp hlen)
    subst htext
    rw [show pyReplace [] tk (maskedToken tk) = [] from rfl] at hpre
    have h2 : tk.length ≤ 0 := by simpa using hpre.length_le
    omega
  | succ L ihL =>
    intro text hlen i hpre
    cases text with
    | nil =>
      rw [show pyReplace [] tk (maskedToken tk) = [] from rfl] at hpre
      have h2 : tk.length ≤ 0 := by simpa using hpre.length_le
      omega
    | cons c rest =>
      rw [pyReplace_cons] at hpre
      by_cases hm : tk ≠ [] ∧ tk.isPrefixOf (c :: rest)
      · rw [if_pos hm] at hpre
        have hmlen := maskedToken_length tk h8
        by_cases hi : i < 11
        · have hdropi : (maskedToken tk ++
              pyReplace ((c :: rest).drop tk.length) tk (maskedToken tk)).drop i
              = (maskedToken tk).drop i ++
                pyReplace ((c :: rest).drop tk.length) tk (maskedToken tk) :=
            List.drop_append_of_le_length (by omega)
          rw [hdropi] at hpre
          by_cases hi6 : i ≤ 6
          · exact hdot (dot_mem_of_pre_mid tk tk _ h8 i hi6 (by omega) hpre)
          · have hb := border_eq_of_pre_late tk _ h8 i (by omega) (by omega) hpre
            exact hbf (11 - i) (List.mem_range.mpr (by omega)) (by omega) hb
        · have hdropi : (maskedToken tk ++
              pyReplace ((c :: rest).drop tk.length) tk (maskedToken tk)).drop i
              = (pyReplace ((c :: rest).drop tk.length) tk (maskedToken tk)).drop (i - 11) := by
            rw [List.drop_append_eq_append_drop]
            rw [List.drop_eq_nil_of_le (by omega), hmlen]
            rfl
          rw [hdropi] at hpre
          refine ihL ((c :: rest).drop tk.length) ?_ (i - 11) hpre
          simp only [List.length_drop, List.length_cons] at hlen ⊢
          omega
      · rw [if_neg hm] at hpre
        cases i with
        | zero =>
          rw [List.drop_zero] at hpre
          have htkne : tk ≠ [] := by
            intro h
            rw [h] at h8
            simp at h8
          have hnop : ¬ tk <+: (c :: rest) := fun hcon =>
            hm ⟨htkne, isPrefixOf_true_iff.mpr hcon⟩
          have h1 : tk.take 1 = [c] := by
            obtain ⟨s, hs⟩ := hpre
            have h2 := congrArg (List.take 1) hs
            rw [List.take_append_of_le_length (by omega)] at h2
            simpa using h2
          have htail : tk.drop 1 <+: pyReplace rest tk (maskedToken tk) := by
            have h2 := drop_pre_of_pre tk _ 1 hpre (by omega)
            simpa using h2
          refine token_suffix_scan_inv tk h8 hdot hbf rest 1 (by omega) ?_ htail
          intro hcon
          apply hnop
          rw [h1] at hcon
          simpa using hcon
        | succ j =>
          rw [List.drop_succ_cons] at hpre
          refine ihL rest ?_ j hpre
          simp only [List.length_cons] at hlen
          omega

/-- C5 counterexample: for the token `abcd...wxyz` (length 11, at least
8) the replacement string `first4 ++ "..." ++ last4` equals the token
itself, so masking a text consisting of exactly that token returns it
verbatim and the raw token does occur in the masked output. -/
theorem mask_token_reappears_counterexample :
    8 ≤ "abcd...wxyz".toList.length ∧
    mask_sensitive_data "abcd...wxyz".toList (some "abcd...wxyz".toList)
      = "abcd...wxyz".toList ∧
    occursIn "abcd...wxyz".toList
      (mask_sensitive_data "abcd...wxyz".toList (some "abcd...wxyz".toList)) := by
  refine ⟨by decide, by decide, ⟨0, ?_⟩⟩
  rw [show mask_sensitive_data "abcd...wxyz".toList (some "abcd...wxyz".toList)
      = "abcd...wxyz".toList from by decide]
  exact ⟨[], by simp⟩

/-- C5 (amended): for every text and token of length at least 8, the
masking function replaces each left-to-right non-overlapping occurrence
of the token by its first 4 characters, three dots, and its last 4
characters; and provided the token contains no dot character and no
nonempty proper prefix of the token is also a suffix of it, the raw token
does not occur anywhere in the masked output.  (Without those two
conditions the raw token can reappear across replacement boundaries, as
the counterexample shows.) -/
theorem mask_no_reoccurrence (text tk : List Char) (h8 : 8 ≤ tk.length)
    (hdot : '.' ∉ tk) (hbf : BorderFree tk) :
    mask_sensitive_data text (some tk)
        = pyReplace text tk (tk.take 4 ++ ('.' :: '.' :: '.' :: tk.drop (tk.length - 4))) ∧
    ¬ occursIn tk (mask_sensitive_data text (some tk)) := by
  have hnotlt : ¬ tk.length < 8 := by omega
  constructor
  · simp only [mask_sensitive_data, if_neg hnotlt, maskedToken]
  · rintro ⟨i, hi⟩
    simp only [mask_sensitive_data, if_neg hnotlt] at hi
    exact token_not_in_pyReplace_aux tk h8 hdot hbf text.length text (le_refl _) i hi

/-- Witness for C5 at a dot-free, border-free 8-character token occurring
in a concrete text. -/
theorem mask_no_reoccurrence_witness :
    ¬ occursIn "abcdefgh".toList
      (mask_sensitive_data "tok=abcdefgh end".toList (some "abcdefgh".toList)) :=
  (mask_no_reoccurrence "tok=abcdefgh end".toList "abcdefgh".toList
    (by decide) (by decide) (by decide)).2
